import Mathlib

/-! # Verification of the x0001e bit-vector layer and LLVM intrinsic hooks

The repository wraps a solver (boolector) bit-vector in a Rust `BV` type
(`src/solver/bv.rs`) and dispatches LLVM intrinsic calls through a registry
(`src/hooks/intrinsics.rs`).  Here a bit-vector is its width in bits together
with its unsigned value below `2 ^ width`.

Conventions of the embedding:
* The underlying solver library's constructors and operations live in the
  `Boolector` namespace and are total functions on this value representation.
* The repository's own layer lives in the `BV` namespace.  A Rust `assert!`
  failure, a `todo!()` and an operation applied outside the solver library's
  domain (such as extracting a bit range past the end of a bit-vector) are all
  modelled by `Option`: a function returns `none` exactly when the original
  code fails to produce a value.
-/

/-- A solver bit-vector: a width in bits and its unsigned value. -/
structure BV where
  width : Nat
  val : Nat
  val_lt : val < 2 ^ width

theorem BV.ext_eq : ∀ {a b : BV}, a.width = b.width → a.val = b.val → a = b
  | ⟨_, _, _⟩, ⟨_, _, _⟩, rfl, rfl => rfl

instance : DecidableEq BV := fun a b =>
  if h : a.width = b.width ∧ a.val = b.val then
    isTrue (BV.ext_eq h.1 h.2)
  else
    isFalse fun he => h ⟨by rw [he], by rw [he]⟩

theorem BV.twoPow_pos (n : Nat) : 0 < 2 ^ n := pow_pos (by norm_num) n

/-- Build a bit-vector of width `w` from a value, truncating modulo `2 ^ w`. -/
def BV.ofNat (w v : Nat) : BV := ⟨w, v % 2 ^ w, Nat.mod_lt v (BV.twoPow_pos w)⟩

/-- Bit length of the bit-vector (`BV::len`, forwarding `get_width`). -/
def BV.len (x : BV) : Nat := x.width

@[simp] theorem BV.len_eq (x : BV) : x.len = x.width := rfl

namespace Boolector

/-- The all-zero constant `boolector::BV::zero`. -/
def zero (w : Nat) : BV := ⟨w, 0, BV.twoPow_pos w⟩

/-- The constant with value one, `boolector::BV::one`. -/
def one (w : Nat) : BV := BV.ofNat w 1

/-- The all-ones constant `boolector::BV::ones`. -/
def ones (w : Nat) : BV := ⟨w, 2 ^ w - 1, Nat.sub_lt (BV.twoPow_pos w) (by norm_num)⟩

/-- Zero extension `uext` by `extra` additional high bits. -/
def uext (x : BV) (extra : Nat) : BV :=
  ⟨x.width + extra, x.val,
    lt_of_lt_of_le x.val_lt (Nat.pow_le_pow_right (by norm_num) (Nat.le_add_right _ _))⟩

/-- Two's-complement (signed) reading of a bit-vector. -/
def sint (x : BV) : Int :=
  if x.val < 2 ^ (x.width - 1) then (x.val : Int) else (x.val : Int) - 2 ^ x.width

/-- Build a bit-vector of width `w` from a signed value, modulo `2 ^ w`. -/
def ofInt (w : Nat) (i : Int) : BV :=
  ⟨w, (i % ((2 ^ w : Nat) : Int)).toNat, by
    have h : (0 : Int) < ((2 ^ w : Nat) : Int) := by exact_mod_cast BV.twoPow_pos w
    have h1 : 0 ≤ i % ((2 ^ w : Nat) : Int) := Int.emod_nonneg i (by omega)
    have h2 : i % ((2 ^ w : Nat) : Int) < ((2 ^ w : Nat) : Int) := Int.emod_lt_of_pos i h
    omega⟩

/-- Signed-overflow test for a width-`w` two's-complement result. -/
def soverflow (w : Nat) (i : Int) : Bool :=
  decide (i < -((2 ^ (w - 1) : Nat) : Int)) || decide (((2 ^ (w - 1) : Nat) : Int) ≤ i)

/-- A 1-bit bit-vector carrying a truth value. -/
def ofBool (b : Bool) : BV := ⟨1, if b then 1 else 0, by cases b <;> decide⟩

def add (a b : BV) : BV := BV.ofNat a.width (a.val + b.val)

def sub (a b : BV) : BV := BV.ofNat a.width (a.val + (2 ^ a.width - b.val))

def mul (a b : BV) : BV := BV.ofNat a.width (a.val * b.val)

def udiv (a b : BV) : BV :=
  if b.val = 0 then ones a.width else BV.ofNat a.width (a.val / b.val)

def urem (a b : BV) : BV :=
  if b.val = 0 then ⟨a.width, a.val, a.val_lt⟩ else BV.ofNat a.width (a.val % b.val)

def sdiv (a b : BV) : BV :=
  if b.val = 0 then (if sint a < 0 then one a.width else ones a.width)
  else ofInt a.width ((sint a).tdiv (sint b))

def srem (a b : BV) : BV :=
  if b.val = 0 then ⟨a.width, a.val, a.val_lt⟩
  else ofInt a.width ((sint a).tmod (sint b))

def _eq (a b : BV) : BV := ofBool (decide (a.val = b.val))

def _ne (a b : BV) : BV := ofBool (decide (a.val ≠ b.val))

def ugt (a b : BV) : BV := ofBool (decide (b.val < a.val))

def ugte (a b : BV) : BV := ofBool (decide (b.val ≤ a.val))

def ult (a b : BV) : BV := ofBool (decide (a.val < b.val))

def ulte (a b : BV) : BV := ofBool (decide (a.val ≤ b.val))

def sgt (a b : BV) : BV := ofBool (decide (sint b < sint a))

def sgte (a b : BV) : BV := ofBool (decide (sint b ≤ sint a))

def slt (a b : BV) : BV := ofBool (decide (sint a < sint b))

def slte (a b : BV) : BV := ofBool (decide (sint a ≤ sint b))

def uaddo (a b : BV) : BV := ofBool (decide (2 ^ a.width ≤ a.val + b.val))

def saddo (a b : BV) : BV := ofBool (soverflow a.width (sint a + sint b))

def usubo (a b : BV) : BV := ofBool (decide (a.val < b.val))

def ssubo (a b : BV) : BV := ofBool (soverflow a.width (sint a - sint b))

def umulo (a b : BV) : BV := ofBool (decide (2 ^ a.width ≤ a.val * b.val))

def smulo (a b : BV) : BV := ofBool (soverflow a.width (sint a * sint b))

def not (x : BV) : BV :=
  ⟨x.width, 2 ^ x.width - 1 - x.val, by
    have := x.val_lt
    have := BV.twoPow_pos x.width
    omega⟩

/-- Bitwise conjunction: the solver library aborts unless the operand widths
match, so the result is defined only for equal widths. -/
def and (a b : BV) : Option BV :=
  if a.width = b.width then some (BV.ofNat a.width (a.val &&& b.val)) else none

/-- Bitwise disjunction: defined only for equal operand widths. -/
def or (a b : BV) : Option BV :=
  if a.width = b.width then some (BV.ofNat a.width (a.val ||| b.val)) else none

/-- Bitwise exclusive or: defined only for equal operand widths. -/
def xor (a b : BV) : Option BV :=
  if a.width = b.width then some (BV.ofNat a.width (a.val ^^^ b.val)) else none

/-- Logical shift left: the solver library accepts a shift operand of the same
width, or of width log2 of the value width (the value width then a power of
two), and aborts otherwise. -/
def sll (a b : BV) : Option BV :=
  if b.width = a.width ∨ 2 ^ b.width = a.width then
    some (BV.ofNat a.width (a.val <<< b.val))
  else none

/-- Logical shift right: same width domain as `sll`. -/
def srl (a b : BV) : Option BV :=
  if b.width = a.width ∨ 2 ^ b.width = a.width then
    some (BV.ofNat a.width (a.val >>> b.val))
  else none

/-- Arithmetic shift right: same width domain as `sll`. -/
def sra (a b : BV) : Option BV :=
  if b.width = a.width ∨ 2 ^ b.width = a.width then
    some (ofInt a.width (Int.fdiv (sint a) ((2 ^ b.val : Nat) : Int)))
  else none

theorem concat_val_lt {a m b n : Nat} (ha : a < 2 ^ m) (hb : b < 2 ^ n) :
    a * 2 ^ n + b < 2 ^ (m + n) := by
  have h1 : (a + 1) * 2 ^ n ≤ 2 ^ m * 2 ^ n :=
    Nat.mul_le_mul_right _ (Nat.succ_le_of_lt ha)
  have h2 : a * 2 ^ n + b < a * 2 ^ n + 2 ^ n := by omega
  have h3 : a * 2 ^ n + 2 ^ n = (a + 1) * 2 ^ n := by ring
  have h4 : 2 ^ m * 2 ^ n = 2 ^ (m + n) := (pow_add 2 m n).symm
  omega

/-- Concatenation: `a` occupies the high bits, `b` the low bits. -/
def concat (a b : BV) : BV :=
  ⟨a.width + b.width, a.val * 2 ^ b.width + b.val, concat_val_lt a.val_lt b.val_lt⟩

/-- Bit extraction `slice(high, low)`: defined only for a valid bit range
(`high < width`); outside it the solver library aborts. -/
def slice (x : BV) (high low : Nat) : Option BV :=
  if low ≤ high ∧ high < x.width then
    some ⟨high - low + 1, x.val >>> low % 2 ^ (high - low + 1), Nat.mod_lt _ (BV.twoPow_pos _)⟩
  else none

/-- The if-then-else node `cond_bv` on a 1-bit selector. -/
def cond_bv (c t e : BV) : BV := if c.val = 1 then t else e

end Boolector

/-- `BV::zero_ext`: extend to `width` when smaller, identity when equal,
`todo!()` (modelled `none`) when larger. -/
def BV.zero_ext (x : BV) (width : Nat) : Option BV :=
  match compare x.len width with
  | .lt => some (Boolector.uext x (width - x.len))
  | .eq => some x
  | .gt => none

/-- `BV::slice(low, high)`: asserts `low <= high` and `high <= len`, then calls
the solver library's extraction (which additionally needs `high < len`). -/
def BV.slice (x : BV) (low high : Nat) : Option BV :=
  if low ≤ high ∧ high ≤ x.len then Boolector.slice x high low else none

/-- `BV::resize_unsigned`: equal width returns the symbol; the `Less` arm calls
`slice(0, width - 1)` and the `Greater` arm calls `zero_ext(width)`, exactly as
the source does. -/
def BV.resize_unsigned (x : BV) (width : Nat) : Option BV :=
  match compare x.len width with
  | .eq => some x
  | .lt => x.slice 0 (width - 1)
  | .gt => x.zero_ext width

def BV.eq (a b : BV) : Option BV :=
  if a.len = b.len then some (Boolector._eq a b) else none

def BV.ne (a b : BV) : Option BV :=
  if a.len = b.len then some (Boolector._ne a b) else none

def BV.ugt (a b : BV) : Option BV :=
  if a.len = b.len then some (Boolector.ugt a b) else none

def BV.ugte (a b : BV) : Option BV :=
  if a.len = b.len then some (Boolector.ugte a b) else none

def BV.ult (a b : BV) : Option BV :=
  if a.len = b.len then some (Boolector.ult a b) else none

def BV.ulte (a b : BV) : Option BV :=
  if a.len = b.len then some (Boolector.ulte a b) else none

def BV.sgt (a b : BV) : Option BV :=
  if a.len = b.len then some (Boolector.sgt a b) else none

def BV.sgte (a b : BV) : Option BV :=
  if a.len = b.len then some (Boolector.sgte a b) else none

def BV.slt (a b : BV) : Option BV :=
  if a.len = b.len then some (Boolector.slt a b) else none

def BV.slte (a b : BV) : Option BV :=
  if a.len = b.len then some (Boolector.slte a b) else none

def BV.add (a b : BV) : Option BV :=
  if a.len = b.len then some (Boolector.add a b) else none

def BV.sub (a b : BV) : Option BV :=
  if a.len = b.len then some (Boolector.sub a b) else none

def BV.mul (a b : BV) : Option BV :=
  if a.len = b.len then some (Boolector.mul a b) else none

def BV.udiv (a b : BV) : Option BV :=
  if a.len = b.len then some (Boolector.udiv a b) else none

def BV.sdiv (a b : BV) : Option BV :=
  if a.len = b.len then some (Boolector.sdiv a b) else none

def BV.urem (a b : BV) : Option BV :=
  if a.len = b.len then some (Boolector.urem a b) else none

def BV.srem (a b : BV) : Option BV :=
  if a.len = b.len then some (Boolector.srem a b) else none

def BV.uaddo (a b : BV) : Option BV :=
  if a.len = b.len then some (Boolector.uaddo a b) else none

def BV.saddo (a b : BV) : Option BV :=
  if a.len = b.len then some (Boolector.saddo a b) else none

def BV.usubo (a b : BV) : Option BV :=
  if a.len = b.len then some (Boolector.usubo a b) else none

def BV.ssubo (a b : BV) : Option BV :=
  if a.len = b.len then some (Boolector.ssubo a b) else none

def BV.umulo (a b : BV) : Option BV :=
  if a.len = b.len then some (Boolector.umulo a b) else none

def BV.smulo (a b : BV) : Option BV :=
  if a.len = b.len then some (Boolector.smulo a b) else none

/-- `BV::not`: no width assertion, forwards to the solver library. -/
def BV.not (x : BV) : Option BV := some (Boolector.not x)

/-- `BV::and`: no width assertion in this layer; the operands go straight to
the solver library, which itself requires equal widths. -/
def BV.and (a b : BV) : Option BV := Boolector.and a b

/-- `BV::or`: no width assertion in this layer, forwards to the solver
library. -/
def BV.or (a b : BV) : Option BV := Boolector.or a b

/-- `BV::xor`: no width assertion in this layer, forwards to the solver
library. -/
def BV.xor (a b : BV) : Option BV := Boolector.xor a b

/-- `BV::sll`: no width assertion in this layer; the solver library accepts
equal widths or a log2-width shift operand. -/
def BV.sll (a b : BV) : Option BV := Boolector.sll a b

/-- `BV::srl`: no width assertion in this layer, forwards to the solver
library. -/
def BV.srl (a b : BV) : Option BV := Boolector.srl a b

/-- `BV::sra`: no width assertion in this layer, forwards to the solver
library. -/
def BV.sra (a b : BV) : Option BV := Boolector.sra a b

/-- `BV::concat`: no assertion. -/
def BV.concat (a b : BV) : Option BV := some (Boolector.concat a b)

/-- `BV::ite`: asserts that the selector has width 1. -/
def BV.ite (c t e : BV) : Option BV :=
  if c.len = 1 then some (Boolector.cond_bv c t e) else none

/-- `BV::uadds` (saturated unsigned addition), exactly as the source computes
it: `ite(uaddo(a, b), ones, add(a, b))`. -/
def BV.uadds (a b : BV) : Option BV :=
  if a.len = b.len then do
    let result ← BV.add a b
    let overflow ← BV.uaddo a b
    let saturated := Boolector.ones a.len
    BV.ite overflow saturated result
  else none

/-- `BV::sadds` (saturated signed addition), exactly as the source computes it.
Note that the source builds its `max` constant as
`zero(1).concat(one(width - 1))`, a value-one low part. -/
def BV.sadds (a b : BV) : Option BV :=
  if a.len = b.len then do
    let width := a.len
    let result ← BV.add a b
    let overflow ← BV.saddo a b
    let is_negative ← BV.slice a (a.len - 1) (a.len - 1)
    let min := Boolector.concat (Boolector.one 1) (Boolector.zero (width - 1))
    let max := Boolector.concat (Boolector.zero 1) (Boolector.one (width - 1))
    let selected ← BV.ite is_negative min max
    BV.ite overflow selected result
  else none

/-! ## Intrinsic hooks (`src/hooks/intrinsics.rs`)

`ReturnValue` is the engine's value-or-void result.  The symbolic memory
subsystem (`crate::memory`) is not part of the staged sources; its interface is
modelled from the spec.  `llvm.*.with.overflow` and the saturating intrinsics
are modelled on already-evaluated operands.
-/

/-- The engine's return value variant. -/
inductive ReturnValue where
  | Void : ReturnValue
  | Value : BV → ReturnValue

/-- Modelled from the spec: `BITS_IN_BYTE` of `crate::memory` (a byte-addressed
memory of 8-bit cells). -/
def BITS_IN_BYTE : Nat := 8

/-- Modelled from the spec: the symbolic memory, bit-addressed little-endian
(`crate::memory` is not among the staged sources). -/
def Memory : Type := Nat → Bool

/-- Value of `k` consecutive bits starting at bit index `base`, little-endian. -/
def Memory.readVal (m : Memory) (base : Nat) : Nat → Nat
  | 0 => 0
  | k + 1 => (if m base then 1 else 0) + 2 * Memory.readVal m (base + 1) k

theorem Memory.readVal_lt (m : Memory) (base k : Nat) : m.readVal base k < 2 ^ k := by
  induction k generalizing base with
  | zero => simp [Memory.readVal]
  | succ k ih =>
    have h := ih (base + 1)
    have : 2 ^ (k + 1) = 2 * 2 ^ k := by ring
    by_cases hb : m base <;> simp [Memory.readVal, hb] <;> omega

/-- Modelled from the spec: `read(addr, width_bits)` returns a bit-vector of
exactly `width_bits` bits at byte address `addr`. -/
def Memory.read (m : Memory) (addr bits : Nat) : BV :=
  ⟨bits, m.readVal (addr * BITS_IN_BYTE) bits, m.readVal_lt _ _⟩

/-- Modelled from the spec: `write(addr, value)` stores the bits of `value` at
byte address `addr`, leaving every other bit unchanged. -/
def Memory.write (m : Memory) (addr : Nat) (v : BV) : Memory :=
  fun i =>
    if addr * BITS_IN_BYTE ≤ i ∧ i < addr * BITS_IN_BYTE + v.width then
      v.val.testBit (i - addr * BITS_IN_BYTE)
    else m i

/-- Rust `u64 as u32`: keep the low 32 bits. -/
def u64_as_u32 (x : Nat) : Nat := x % 2 ^ 32

/-- Rust `u32` multiplication: wraps modulo `2 ^ 32`. -/
def u32_mul (x y : Nat) : Nat := x * y % 2 ^ 32

/-- `llvm_memcpy` after operand evaluation: `size` is the concretized 64-bit
byte count; the source computes `size as u32 * BITS_IN_BYTE` and copies that
many bits from `src` to `dst`. -/
def llvm_memcpy (dst src size : Nat) (m : Memory) : Memory × ReturnValue :=
  let bits := u32_mul (u64_as_u32 size) BITS_IN_BYTE
  let value := m.read src bits
  (m.write dst value, ReturnValue.Void)

/-- `llvm_memset` after operand evaluation: asserts that the fill value is one
byte wide, then writes it at each of the `size` consecutive addresses
`dst + byte` (pointer-width addition). -/
def llvm_memset (dst value : BV) (size ptr_size : Nat) (m : Memory) :
    Option (Memory × ReturnValue) :=
  if value.len = BITS_IN_BYTE then do
    let final ← (List.range size).foldlM (fun mem byte => do
      let offset := BV.ofNat ptr_size byte
      let addr ← BV.add dst offset
      pure (mem.write addr.val value)) m
    pure (final, ReturnValue.Void)
  else none

/-- The binary operations that check for overflow. -/
inductive BinaryOpOverflow where
  | SAdd | UAdd | SSub | USub | SMul | UMul

/-- The per-element wrapping result each overflow variant computes. -/
def laneResult (op : BinaryOpOverflow) (l r : BV) : BV :=
  match op with
  | .SAdd | .UAdd => Boolector.add l r
  | .SSub | .USub => Boolector.sub l r
  | .SMul | .UMul => Boolector.mul l r

/-- The per-element 1-bit overflow flag each overflow variant computes. -/
def laneOverflow (op : BinaryOpOverflow) (l r : BV) : BV :=
  match op with
  | .SAdd => Boolector.saddo l r
  | .UAdd => Boolector.uaddo l r
  | .SSub => Boolector.ssubo l r
  | .USub => Boolector.usubo l r
  | .SMul => Boolector.smulo l r
  | .UMul => Boolector.umulo l r

/-- The `operation` closure of `binary_op_overflow`: the `(result, overflow)`
pair, followed by `assert_eq!(overflow.len(), 1)`. -/
def operation (op : BinaryOpOverflow) (lhs rhs : BV) : Option (BV × BV) := do
  let pair ←
    match op with
    | .SAdd => do
        let r ← BV.add lhs rhs
        let o ← BV.saddo lhs rhs
        pure (r, o)
    | .UAdd => do
        let r ← BV.add lhs rhs
        let o ← BV.uaddo lhs rhs
        pure (r, o)
    | .SSub => do
        let r ← BV.sub lhs rhs
        let o ← BV.ssubo lhs rhs
        pure (r, o)
    | .USub => do
        let r ← BV.sub lhs rhs
        let o ← BV.usubo lhs rhs
        pure (r, o)
    | .SMul => do
        let r ← BV.mul lhs rhs
        let o ← BV.smulo lhs rhs
        pure (r, o)
    | .UMul => do
        let r ← BV.mul lhs rhs
        let o ← BV.umulo lhs rhs
        pure (r, o)
  if pair.2.len = 1 then some pair else none

/-- `binary_op_overflow` on two integer (scalar) operands:
`Ok(overflow.concat(&result))`. -/
def binary_op_overflow_scalar (op : BinaryOpOverflow) (lhs rhs : BV) : Option BV := do
  let pair ← operation op lhs rhs
  pure (Boolector.concat pair.2 pair.1)

/-- The per-lane body of `binary_op_overflow`'s vector map: slice lane `i` out
of both operands and run `operation` on the pair of slices. -/
def laneOp (op : BinaryOpOverflow) (lhs rhs : BV) (bits i : Nat) : Option (BV × BV) := do
  let low := i * bits
  let high := (i + 1) * bits - 1
  let l ← lhs.slice low high
  let r ← rhs.slice low high
  operation op l r

/-- `binary_op_overflow` on two non-scalable vector operands of `num_elements`
lanes of `bits` bits each: per-lane slices, per-lane `operation`, the source's
`reduce` concatenating each new lane above the accumulator, and finally
`overflows.concat(&results)`. -/
def binary_op_overflow_vector (op : BinaryOpOverflow) (lhs rhs : BV)
    (num_elements bits : Nat) : Option BV := do
  let lanes ← (List.range num_elements).mapM (laneOp op lhs rhs bits)
  match lanes with
  | [] => none
  | x :: xs =>
    let acc := xs.foldl
      (fun acc e => (Boolector.concat e.1 acc.1, Boolector.concat e.2 acc.2)) x
    pure (Boolector.concat acc.2 acc.1)

/-! ## The intrinsic registry (`Intrinsics`)

Names are lists of characters.  The fixed table is an association list
(`HashMap` with exact-name lookup); the variable table models
`radix_trie::Trie::get_ancestor_value`, which returns the value of the longest
inserted key that is a prefix of the queried name. -/

/-- The hooks the registry can store, one constructor per hook function
registered by `Intrinsics::new_with_defaults`. -/
inductive Hook where
  | llvm_assume | llvm_memcpy | llvm_memset | llvm_umax
  | llvm_sadd_with_overflow | llvm_uadd_with_overflow
  | llvm_ssub_with_overflow | llvm_usub_with_overflow
  | llvm_smul_with_overflow | llvm_umul_with_overflow
  | llvm_sadd_sat | llvm_uadd_sat | llvm_expect | noop
deriving DecidableEq

/-- Intrinsic hook storage: fixed exact names and variable name families. -/
structure Intrinsics where
  fixed : List (List Char × Hook)
  variablePrefixes : List (List Char × Hook)

/-- Exact-name lookup in the fixed table. -/
def lookupFixed : List (List Char × Hook) → List Char → Option Hook
  | [], _ => none
  | (k, v) :: rest, name => if k = name then some v else lookupFixed rest name

/-- `Trie::get_ancestor_value`: the entry whose key is the longest registered
prefix of the queried name, if any. -/
def getAncestorValue : List (List Char × Hook) → List Char → Option (List Char × Hook)
  | [], _ => none
  | e :: rest, name =>
    match getAncestorValue rest name with
    | none => if e.1 <+: name then some e else none
    | some a => if e.1 <+: name ∧ a.1.length ≤ e.1.length then some e else some a

/-- `Intrinsics::get`: the fixed table first, else the longest registered
prefix. -/
def Intrinsics.get (I : Intrinsics) (name : List Char) : Option Hook :=
  (lookupFixed I.fixed name).orElse
    (fun _ => (getAncestorValue I.variablePrefixes name).map Prod.snd)

/-- `Intrinsics::new_with_defaults`: every registration the source performs, in
source order. -/
def Intrinsics.new_with_defaults : Intrinsics where
  fixed := [("llvm.assume".toList, .llvm_assume)]
  variablePrefixes := [
    ("llvm.memcpy.".toList, .llvm_memcpy),
    ("llvm.memset.".toList, .llvm_memset),
    ("llvm.umax.".toList, .llvm_umax),
    ("llvm.sadd.with.overflow.".toList, .llvm_sadd_with_overflow),
    ("llvm.uadd.with.overflow.".toList, .llvm_uadd_with_overflow),
    ("llvm.ssub.with.overflow.".toList, .llvm_ssub_with_overflow),
    ("llvm.usub.with.overflow.".toList, .llvm_usub_with_overflow),
    ("llvm.smul.with.overflow.".toList, .llvm_smul_with_overflow),
    ("llvm.umul.with.overflow.".toList, .llvm_umul_with_overflow),
    ("llvm.sadd.sat.".toList, .llvm_sadd_sat),
    ("llvm.uadd.sat.".toList, .llvm_uadd_sat),
    ("llvm.expect.".toList, .llvm_expect),
    ("llvm.dbg".toList, .noop),
    ("llvm.lifetime".toList, .noop),
    ("llvm.experimental".toList, .noop)]

/-! ## Shared lemmas -/

theorem laneResult_width (op : BinaryOpOverflow) (l r : BV) :
    (laneResult op l r).width = l.width := by cases op <;> rfl

theorem laneOverflow_width (op : BinaryOpOverflow) (l r : BV) :
    (laneOverflow op l r).width = 1 := by cases op <;> rfl

theorem operation_eq (op : BinaryOpOverflow) (lhs rhs : BV) (h : lhs.width = rhs.width) :
    operation op lhs rhs = some (laneResult op lhs rhs, laneOverflow op lhs rhs) := by
  cases op <;>
    simp [operation, laneResult, laneOverflow, BV.add, BV.sub, BV.mul, BV.saddo, BV.uaddo,
      BV.ssubo, BV.usubo, BV.smulo, BV.umulo, BV.len, h, Boolector.saddo, Boolector.uaddo,
      Boolector.ssubo, Boolector.usubo, Boolector.smulo, Boolector.umulo, Boolector.ofBool]

theorem concat_parts (hi lo : BV) :
    (Boolector.concat hi lo).width = hi.width + lo.width ∧
    (Boolector.concat hi lo).val % 2 ^ lo.width = lo.val ∧
    (Boolector.concat hi lo).val / 2 ^ lo.width = hi.val := by
  refine ⟨rfl, ?_, ?_⟩
  · simp only [Boolector.concat]
    rw [Nat.mul_comm hi.val (2 ^ lo.width), Nat.mul_add_mod, Nat.mod_eq_of_lt lo.val_lt]
  · simp only [Boolector.concat]
    rw [mul_comm, Nat.mul_add_div (BV.twoPow_pos _)]
    simp [Nat.div_eq_of_lt lo.val_lt]

/-! ## Claims -/

/-- C1 (code bug): at width 4, `5 + 6` overflows the signed addition with a
non-negative first operand, so by the spec `sadds` must return
`MAX = 0111 = 7`; the code builds its maximum constant as
`zero(1).concat(one(width - 1))`, value-one low bits, and returns 1. -/
theorem sadds_positive_saturation_value :
    (BV.ofNat 4 5).width = (BV.ofNat 4 6).width ∧
    Boolector.sint (BV.ofNat 4 5) + Boolector.sint (BV.ofNat 4 6) = 11 ∧
    (BV.sadds (BV.ofNat 4 5) (BV.ofNat 4 6)).map BV.val = some 1 ∧
    (BV.sadds (BV.ofNat 4 5) (BV.ofNat 4 6)).map BV.val ≠ some 7 := by decide

/-- C2 (code bug): `resize_unsigned` only succeeds at the identity width.  The
`Less` and `Greater` match arms are swapped relative to the function's own
documentation: growing hits `slice(0, width - 1)` past the end (or its
assertion), shrinking hits the `todo!()` in `zero_ext`. -/
theorem resize_unsigned_fails_to_resize :
    BV.resize_unsigned (BV.ofNat 8 1) 16 = none ∧
    BV.resize_unsigned (BV.ofNat 8 171) 9 = none ∧
    BV.resize_unsigned (BV.ofNat 8 171) 4 = none ∧
    BV.resize_unsigned (BV.ofNat 8 171) 8 = some (BV.ofNat 8 171) := by decide

/-- C5 (amended): with mismatched operand widths, the comparison, arithmetic,
overflow-predicate and saturating operations fail this layer's assertion, and
and/or/xor are rejected by the underlying solver library, so none of them
produces a value; the shifts alone also accept a shift-amount operand of width
log2 of the value width, and exactly in that case a mismatched-width shift
produces a value rather than being rejected. -/
theorem mismatched_width_assertions (a b : BV) (h : a.width ≠ b.width) :
    (BV.eq a b = none ∧ BV.ne a b = none ∧ BV.ugt a b = none ∧ BV.ugte a b = none ∧
     BV.ult a b = none ∧ BV.ulte a b = none ∧ BV.sgt a b = none ∧ BV.sgte a b = none ∧
     BV.slt a b = none ∧ BV.slte a b = none ∧ BV.add a b = none ∧ BV.sub a b = none ∧
     BV.mul a b = none ∧ BV.udiv a b = none ∧ BV.sdiv a b = none ∧ BV.urem a b = none ∧
     BV.srem a b = none ∧ BV.uaddo a b = none ∧ BV.saddo a b = none ∧ BV.usubo a b = none ∧
     BV.ssubo a b = none ∧ BV.umulo a b = none ∧ BV.smulo a b = none ∧
     BV.uadds a b = none ∧ BV.sadds a b = none) ∧
    (BV.and a b = none ∧ BV.or a b = none ∧ BV.xor a b = none) ∧
    (2 ^ b.width = a.width →
      (BV.sll a b).isSome = true ∧ (BV.srl a b).isSome = true ∧
      (BV.sra a b).isSome = true) ∧
    (2 ^ b.width ≠ a.width →
      BV.sll a b = none ∧ BV.srl a b = none ∧ BV.sra a b = none) := by
  have hb : b.width ≠ a.width := fun e => h e.symm
  refine ⟨?_, ?_, ?_, ?_⟩
  · simp [BV.eq, BV.ne, BV.ugt, BV.ugte, BV.ult, BV.ulte, BV.sgt, BV.sgte, BV.slt, BV.slte,
      BV.add, BV.sub, BV.mul, BV.udiv, BV.sdiv, BV.urem, BV.srem, BV.uaddo, BV.saddo,
      BV.usubo, BV.ssubo, BV.umulo, BV.smulo, BV.uadds, BV.sadds, BV.len, h]
  · simp [BV.and, BV.or, BV.xor, Boolector.and, Boolector.or, Boolector.xor, h]
  · intro hp
    simp [BV.sll, BV.srl, BV.sra, Boolector.sll, Boolector.srl, Boolector.sra, hp]
  · intro hp
    simp [BV.sll, BV.srl, BV.sra, Boolector.sll, Boolector.srl, Boolector.sra, hp, hb]

/-- C5 witness: at widths 8 and 3 every asserted operation and and/or/xor
produce no value, while width 3 is log2 of 8 so the shifts produce one. -/
theorem mismatched_width_assertions_witness :
    (BV.eq (BV.ofNat 8 255) (BV.ofNat 3 1) = none ∧
     BV.ne (BV.ofNat 8 255) (BV.ofNat 3 1) = none ∧
     BV.ugt (BV.ofNat 8 255) (BV.ofNat 3 1) = none ∧
     BV.ugte (BV.ofNat 8 255) (BV.ofNat 3 1) = none ∧
     BV.ult (BV.ofNat 8 255) (BV.ofNat 3 1) = none ∧
     BV.ulte (BV.ofNat 8 255) (BV.ofNat 3 1) = none ∧
     BV.sgt (BV.ofNat 8 255) (BV.ofNat 3 1) = none ∧
     BV.sgte (BV.ofNat 8 255) (BV.ofNat 3 1) = none ∧
     BV.slt (BV.ofNat 8 255) (BV.ofNat 3 1) = none ∧
     BV.slte (BV.ofNat 8 255) (BV.ofNat 3 1) = none ∧
     BV.add (BV.ofNat 8 255) (BV.ofNat 3 1) = none ∧
     BV.sub (BV.ofNat 8 255) (BV.ofNat 3 1) = none ∧
     BV.mul (BV.ofNat 8 255) (BV.ofNat 3 1) = none ∧
     BV.udiv (BV.ofNat 8 255) (BV.ofNat 3 1) = none ∧
     BV.sdiv (BV.ofNat 8 255) (BV.ofNat 3 1) = none ∧
     BV.urem (BV.ofNat 8 255) (BV.ofNat 3 1) = none ∧
     BV.srem (BV.ofNat 8 255) (BV.ofNat 3 1) = none ∧
     BV.uaddo (BV.ofNat 8 255) (BV.ofNat 3 1) = none ∧
     BV.saddo (BV.ofNat 8 255) (BV.ofNat 3 1) = none ∧
     BV.usubo (BV.ofNat 8 255) (BV.ofNat 3 1) = none ∧
     BV.ssubo (BV.ofNat 8 255) (BV.ofNat 3 1) = none ∧
     BV.umulo (BV.ofNat 8 255) (BV.ofNat 3 1) = none ∧
     BV.smulo (BV.ofNat 8 255) (BV.ofNat 3 1) = none ∧
     BV.uadds (BV.ofNat 8 255) (BV.ofNat 3 1) = none ∧
     BV.sadds (BV.ofNat 8 255) (BV.ofNat 3 1) = none) ∧
    (BV.and (BV.ofNat 8 255) (BV.ofNat 3 1) = none ∧
     BV.or (BV.ofNat 8 255) (BV.ofNat 3 1) = none ∧
     BV.xor (BV.ofNat 8 255) (BV.ofNat 3 1) = none) ∧
    (2 ^ (BV.ofNat 3 1).width = (BV.ofNat 8 255).width →
      (BV.sll (BV.ofNat 8 255) (BV.ofNat 3 1)).isSome = true ∧
      (BV.srl (BV.ofNat 8 255) (BV.ofNat 3 1)).isSome = true ∧
      (BV.sra (BV.ofNat 8 255) (BV.ofNat 3 1)).isSome = true) ∧
    (2 ^ (BV.ofNat 3 1).width ≠ (BV.ofNat 8 255).width →
      BV.sll (BV.ofNat 8 255) (BV.ofNat 3 1) = none ∧
      BV.srl (BV.ofNat 8 255) (BV.ofNat 3 1) = none ∧
      BV.sra (BV.ofNat 8 255) (BV.ofNat 3 1) = none) :=
  mismatched_width_assertions (BV.ofNat 8 255) (BV.ofNat 3 1) (by decide)

/-- C5 counterexample: a shift with mismatched operand widths (8 and 3) is not
rejected; it produces a value. -/
theorem sll_mismatched_width_value :
    (BV.ofNat 8 255).width ≠ (BV.ofNat 3 1).width ∧
    BV.sll (BV.ofNat 8 255) (BV.ofNat 3 1) = some (BV.ofNat 8 254) := by decide

/-- C6: for equal-width operands, `uadds` returns all-ones on unsigned
overflow and the wrapping sum otherwise, i.e. `min(a + b, 2 ^ w - 1)`. -/
theorem uadds_saturates_to_max (a b : BV) (h : a.width = b.width) :
    ∃ r, BV.uadds a b = some r ∧ r.width = a.width ∧
      r.val = min (a.val + b.val) (2 ^ a.width - 1) := by
  have hav := a.val_lt
  by_cases hov : 2 ^ a.width ≤ a.val + b.val
  · refine ⟨Boolector.ones a.width, ?_, rfl, ?_⟩
    · simp [BV.uadds, BV.len, h.symm, BV.add, BV.uaddo, BV.ite, Boolector.uaddo,
        Boolector.ofBool, Boolector.cond_bv, hov]
    · rw [min_eq_right (by simp [Boolector.ones]; omega)]
      rfl
  · refine ⟨Boolector.add a b, ?_, rfl, ?_⟩
    · simp [BV.uadds, BV.len, h.symm, BV.add, BV.uaddo, BV.ite, Boolector.uaddo,
        Boolector.ofBool, Boolector.cond_bv, hov]
    · rw [min_eq_left (by omega)]
      simp [Boolector.add, BV.ofNat, Nat.mod_eq_of_lt (by omega : a.val + b.val < 2 ^ a.width)]

/-- C6 witness: 8-bit `4 + 255` saturates to 255. -/
theorem uadds_saturates_to_max_witness :
    ∃ r, BV.uadds (BV.ofNat 8 4) (BV.ofNat 8 255) = some r ∧
      r.width = (BV.ofNat 8 4).width ∧
      r.val = min ((BV.ofNat 8 4).val + (BV.ofNat 8 255).val) (2 ^ (BV.ofNat 8 4).width - 1) :=
  uadds_saturates_to_max (BV.ofNat 8 4) (BV.ofNat 8 255) rfl

/-- C4: for scalar operands of equal width `w`, every
`llvm.{s,u}{add,sub,mul}.with.overflow` returns `concat(overflow, value)`: a
bit-vector of width `w + 1` whose low `w` bits are the wrapping result and
whose bit `w` is the 1-bit overflow flag. -/
theorem scalar_overflow_layout (op : BinaryOpOverflow) (lhs rhs : BV)
    (h : lhs.width = rhs.width) :
    ∃ r, binary_op_overflow_scalar op lhs rhs = some r ∧
      r.width = lhs.width + 1 ∧
      r.val % 2 ^ lhs.width = (laneResult op lhs rhs).val ∧
      r.val / 2 ^ lhs.width = (laneOverflow op lhs rhs).val := by
  refine ⟨Boolector.concat (laneOverflow op lhs rhs) (laneResult op lhs rhs), ?_, ?_, ?_, ?_⟩
  · simp [binary_op_overflow_scalar, operation_eq op lhs rhs h]
  · have := concat_parts (laneOverflow op lhs rhs) (laneResult op lhs rhs)
    rw [this.1, laneOverflow_width, laneResult_width]
    omega
  · have := (concat_parts (laneOverflow op lhs rhs) (laneResult op lhs rhs)).2.1
    rwa [laneResult_width] at this
  · have := (concat_parts (laneOverflow op lhs rhs) (laneResult op lhs rhs)).2.2
    rwa [laneResult_width] at this

/-- C4 witness: `llvm.uadd.with.overflow.i8` on `4` and `255` (the repository's
`test_uadd_with_overflow0`). -/
theorem scalar_overflow_layout_witness :
    ∃ r, binary_op_overflow_scalar .UAdd (BV.ofNat 8 4) (BV.ofNat 8 255) = some r ∧
      r.width = (BV.ofNat 8 4).width + 1 ∧
      r.val % 2 ^ (BV.ofNat 8 4).width = (laneResult .UAdd (BV.ofNat 8 4) (BV.ofNat 8 255)).val ∧
      r.val / 2 ^ (BV.ofNat 8 4).width = (laneOverflow .UAdd (BV.ofNat 8 4) (BV.ofNat 8 255)).val :=
  scalar_overflow_layout .UAdd (BV.ofNat 8 4) (BV.ofNat 8 255) rfl

/-- Lane `i` of a vector of `w`-bit elements, as a bit-vector. -/
def laneBV (x : BV) (w i : Nat) : BV :=
  ⟨w, x.val >>> (i * w) % 2 ^ w, Nat.mod_lt _ (BV.twoPow_pos w)⟩

theorem slice_lane (x : BV) (w i : Nat) (hw : 0 < w) (hle : (i + 1) * w ≤ x.width) :
    BV.slice x (i * w) ((i + 1) * w - 1) = some (laneBV x w i) := by
  have e : (i + 1) * w = i * w + w := by ring
  have h1 : i * w ≤ (i + 1) * w - 1 := by omega
  have h2 : (i + 1) * w - 1 < x.width := by omega
  have h3 : (i + 1) * w - 1 - i * w + 1 = w := by omega
  simp only [BV.slice, BV.len_eq, Boolector.slice]
  rw [if_pos ⟨h1, le_of_lt h2⟩, if_pos ⟨h1, h2⟩]
  refine congrArg some (BV.ext_eq h3 ?_)
  show x.val >>> (i * w) % 2 ^ ((i + 1) * w - 1 - i * w + 1) = x.val >>> (i * w) % 2 ^ w
  rw [h3]

theorem mapM_option_eq_map {α β : Type} (f : α → Option β) (g : α → β) :
    ∀ l : List α, (∀ a ∈ l, f a = some (g a)) → l.mapM f = some (l.map g) := by
  intro l
  induction l with
  | nil => intro _; rfl
  | cons a t ih =>
    intro h
    rw [List.mapM_cons, h a (by simp), ih (fun x hx => h x (by simp [hx]))]
    rfl

theorem Boolector.concat_width (a b : BV) :
    (Boolector.concat a b).width = a.width + b.width := rfl

theorem Boolector.concat_val (a b : BV) :
    (Boolector.concat a b).val = a.val * 2 ^ b.width + b.val := rfl

theorem foldl_concat_lanes (w : Nat) (g : Nat → BV × BV)
    (hr : ∀ i, (g i).1.width = w) (ho : ∀ i, (g i).2.width = 1) :
    ∀ (n : Nat) (x : BV × BV),
    (((List.range n).map g).foldl
        (fun acc e => (Boolector.concat e.1 acc.1, Boolector.concat e.2 acc.2)) x).1.width
      = n * w + x.1.width
    ∧ (((List.range n).map g).foldl
        (fun acc e => (Boolector.concat e.1 acc.1, Boolector.concat e.2 acc.2)) x).2.width
      = n + x.2.width
    ∧ (((List.range n).map g).foldl
        (fun acc e => (Boolector.concat e.1 acc.1, Boolector.concat e.2 acc.2)) x).1.val
      = (∑ i in Finset.range n, (g i).1.val * 2 ^ (i * w + x.1.width)) + x.1.val
    ∧ (((List.range n).map g).foldl
        (fun acc e => (Boolector.concat e.1 acc.1, Boolector.concat e.2 acc.2)) x).2.val
      = (∑ i in Finset.range n, (g i).2.val * 2 ^ (i + x.2.width)) + x.2.val := by
  intro n
  induction n with
  | zero => intro x; simp
  | succ m ih =>
    intro x
    obtain ⟨ihw1, ihw2, ihv1, ihv2⟩ := ih x
    rw [List.range_succ, List.map_append, List.foldl_append]
    simp only [List.map_cons, List.map_nil, List.foldl_cons, List.foldl_nil]
    refine ⟨?_, ?_, ?_, ?_⟩
    · rw [Boolector.concat_width, hr m, ihw1]
      ring
    · rw [Boolector.concat_width, ho m, ihw2]
      ring
    · rw [Boolector.concat_val, ihw1, ihv1, Finset.sum_range_succ]
      ring
    · rw [Boolector.concat_val, ihw2, ihv2, Finset.sum_range_succ]
      ring

/-- The `(result, overflow)` pair `operation` produces on lane `i`. -/
def lanePair (op : BinaryOpOverflow) (lhs rhs : BV) (w i : Nat) : BV × BV :=
  (laneResult op (laneBV lhs w i) (laneBV rhs w i),
   laneOverflow op (laneBV lhs w i) (laneBV rhs w i))

theorem lanePair_result_width (op : BinaryOpOverflow) (lhs rhs : BV) (w i : Nat) :
    (lanePair op lhs rhs w i).1.width = w := laneResult_width op _ _

theorem lanePair_overflow_width (op : BinaryOpOverflow) (lhs rhs : BV) (w i : Nat) :
    (lanePair op lhs rhs w i).2.width = 1 := laneOverflow_width op _ _

theorem laneOp_eq (op : BinaryOpOverflow) (lhs rhs : BV) (w : Nat) (hw : 0 < w)
    (i : Nat) (h1 : (i + 1) * w ≤ lhs.width) (h2 : (i + 1) * w ≤ rhs.width) :
    laneOp op lhs rhs w i = some (lanePair op lhs rhs w i) := by
  simp only [laneOp]
  rw [slice_lane lhs w i hw h1, slice_lane rhs w i hw h2]
  exact operation_eq op _ _ rfl

theorem vector_lanes_eval (op : BinaryOpOverflow) (lhs rhs : BV) (n w : Nat)
    (hn : 0 < n) (hw : 0 < w) (hl : lhs.width = n * w) (hr : rhs.width = n * w) :
    ∃ r, binary_op_overflow_vector op lhs rhs n w = some r ∧
      r.width = n * w + n ∧
      r.val = (∑ i in Finset.range n, (lanePair op lhs rhs w i).2.val * 2 ^ i) * 2 ^ (n * w)
            + ∑ i in Finset.range n, (lanePair op lhs rhs w i).1.val * 2 ^ (i * w) := by
  have hlane : ∀ i ∈ List.range n, laneOp op lhs rhs w i = some (lanePair op lhs rhs w i) := by
    intro i hi
    rw [List.mem_range] at hi
    refine laneOp_eq op lhs rhs w hw i ?_ ?_
    · rw [hl]; exact Nat.mul_le_mul_right w hi
    · rw [hr]; exact Nat.mul_le_mul_right w hi
  have hmap : (List.range n).mapM (laneOp op lhs rhs w) =
      some ((List.range n).map (lanePair op lhs rhs w)) :=
    mapM_option_eq_map _ _ _ hlane
  obtain ⟨m, rfl⟩ : ∃ m, n = m + 1 := ⟨n - 1, by omega⟩
  have hcons : (List.range (m + 1)).map (lanePair op lhs rhs w) =
      lanePair op lhs rhs w 0 ::
        (List.range m).map (fun i => lanePair op lhs rhs w (i + 1)) := by
    rw [List.range_succ_eq_map, List.map_cons, List.map_map]
    rfl
  obtain ⟨hw1, hw2, hv1, hv2⟩ :=
    foldl_concat_lanes w (fun i => lanePair op lhs rhs w (i + 1))
      (fun i => lanePair_result_width op lhs rhs w (i + 1))
      (fun i => lanePair_overflow_width op lhs rhs w (i + 1))
      m (lanePair op lhs rhs w 0)
  rw [lanePair_result_width] at hw1 hv1
  rw [lanePair_overflow_width] at hw2 hv2
  refine ⟨Boolector.concat
      (((List.range m).map (fun i => lanePair op lhs rhs w (i + 1))).foldl
        (fun acc e => (Boolector.concat e.1 acc.1, Boolector.concat e.2 acc.2))
        (lanePair op lhs rhs w 0)).2
      (((List.range m).map (fun i => lanePair op lhs rhs w (i + 1))).foldl
        (fun acc e => (Boolector.concat e.1 acc.1, Boolector.concat e.2 acc.2))
        (lanePair op lhs rhs w 0)).1, ?_, ?_, ?_⟩
  · simp only [binary_op_overflow_vector]
    rw [hmap, hcons]
    rfl
  · rw [Boolector.concat_width, hw1, hw2]
    ring
  · rw [Boolector.concat_val, hw1, hv1, hv2]
    rw [Finset.sum_range_succ' (fun i => (lanePair op lhs rhs w i).2.val * 2 ^ i) m,
      Finset.sum_range_succ' (fun i => (lanePair op lhs rhs w i).1.val * 2 ^ (i * w)) m]
    have e1 : ∑ i in Finset.range m, (lanePair op lhs rhs w (i + 1)).1.val * 2 ^ ((i + 1) * w)
        = ∑ i in Finset.range m, (lanePair op lhs rhs w (i + 1)).1.val * 2 ^ (i * w + w) :=
      Finset.sum_congr rfl (fun i _ => by rw [show (i + 1) * w = i * w + w from by ring])
    rw [e1, show (m + 1) * w = m * w + w from by ring]
    simp only [Nat.zero_mul, pow_zero, mul_one]

/-- C3: for two non-scalable vector operands of `n` lanes of `w` bits each,
the per-lane wrapping results are concatenated in lane-index order (lane 0 in
the lowest `w` bits), the per-lane overflow bits are concatenated in the same
order, and the returned bit-vector places the `n`-bit overflow vector above
the `n * w`-bit result vector. -/
theorem vector_overflow_layout (op : BinaryOpOverflow) (lhs rhs : BV) (n w : Nat)
    (hn : 0 < n) (hw : 0 < w) (hl : lhs.width = n * w) (hr : rhs.width = n * w) :
    ∃ r, binary_op_overflow_vector op lhs rhs n w = some r ∧
      r.width = n * w + n ∧
      r.val = (∑ i in Finset.range n,
            (laneOverflow op (laneBV lhs w i) (laneBV rhs w i)).val * 2 ^ i) * 2 ^ (n * w)
          + ∑ i in Finset.range n,
            (laneResult op (laneBV lhs w i) (laneBV rhs w i)).val * 2 ^ (i * w) :=
  vector_lanes_eval op lhs rhs n w hn hw hl hr

/-- C3 witness: `llvm.uadd.with.overflow` on a 2-lane vector of 2-bit lanes. -/
theorem vector_overflow_layout_witness :
    ∃ r, binary_op_overflow_vector .UAdd (BV.ofNat 4 14) (BV.ofNat 4 7) 2 2 = some r ∧
      r.width = 2 * 2 + 2 ∧
      r.val = (∑ i in Finset.range 2,
            (laneOverflow .UAdd (laneBV (BV.ofNat 4 14) 2 i) (laneBV (BV.ofNat 4 7) 2 i)).val
              * 2 ^ i) * 2 ^ (2 * 2)
          + ∑ i in Finset.range 2,
            (laneResult .UAdd (laneBV (BV.ofNat 4 14) 2 i) (laneBV (BV.ofNat 4 7) 2 i)).val
              * 2 ^ (i * 2) :=
  vector_overflow_layout .UAdd (BV.ofNat 4 14) (BV.ofNat 4 7) 2 2 (by decide) (by decide)
    (by decide) (by decide)

/-! ## Registry lemmas -/

theorem getAncestorValue_mem : ∀ (t : List (List Char × Hook)) (name : List Char)
    (a : List Char × Hook), getAncestorValue t name = some a → a ∈ t ∧ a.1 <+: name := by
  intro t name
  induction t with
  | nil => intro a h; simp [getAncestorValue] at h
  | cons f rest ih =>
    intro a h
    rcases hrec : getAncestorValue rest name with _ | b
    · simp only [getAncestorValue, hrec] at h
      by_cases hf : f.1 <+: name
      · rw [if_pos hf] at h
        injection h with h2
        subst h2
        exact ⟨List.mem_cons_self _ _, hf⟩
      · rw [if_neg hf] at h
        cases h
    · simp only [getAncestorValue, hrec] at h
      by_cases hc : f.1 <+: name ∧ b.1.length ≤ f.1.length
      · rw [if_pos hc] at h
        injection h with h2
        subst h2
        exact ⟨List.mem_cons_self _ _, hc.1⟩
      · rw [if_neg hc] at h
        injection h with h2
        subst h2
        obtain ⟨hm, hp⟩ := ih b hrec
        exact ⟨List.mem_cons_of_mem _ hm, hp⟩

theorem getAncestorValue_none : ∀ (t : List (List Char × Hook)) (name : List Char),
    getAncestorValue t name = none → ∀ e ∈ t, ¬ e.1 <+: name := by
  intro t name
  induction t with
  | nil => intro _ e he; simp at he
  | cons f rest ih =>
    intro h e he
    rcases hrec : getAncestorValue rest name with _ | b
    · simp only [getAncestorValue, hrec] at h
      by_cases hf : f.1 <+: name
      · rw [if_pos hf] at h
        cases h
      · rw [if_neg hf] at h
        rcases List.mem_cons.mp he with rfl | hmem
        · exact hf
        · exact ih hrec e hmem
    · simp only [getAncestorValue, hrec] at h
      by_cases hc : f.1 <+: name ∧ b.1.length ≤ f.1.length
      · rw [if_pos hc] at h
        cases h
      · rw [if_neg hc] at h
        cases h

theorem getAncestorValue_maximal : ∀ (t : List (List Char × Hook)) (name : List Char)
    (a : List Char × Hook), getAncestorValue t name = some a →
    ∀ e ∈ t, e.1 <+: name → e.1.length ≤ a.1.length := by
  intro t name
  induction t with
  | nil => intro a h; simp [getAncestorValue] at h
  | cons f rest ih =>
    intro a h e he hp
    rcases hrec : getAncestorValue rest name with _ | b
    · simp only [getAncestorValue, hrec] at h
      by_cases hf : f.1 <+: name
      · rw [if_pos hf] at h
        injection h with h2
        subst h2
        rcases List.mem_cons.mp he with rfl | hmem
        · exact le_refl _
        · exact absurd hp (getAncestorValue_none rest name hrec e hmem)
      · rw [if_neg hf] at h
        cases h
    · simp only [getAncestorValue, hrec] at h
      by_cases hc : f.1 <+: name ∧ b.1.length ≤ f.1.length
      · rw [if_pos hc] at h
        injection h with h2
        subst h2
        rcases List.mem_cons.mp he with rfl | hmem
        · exact le_refl _
        · exact le_trans (ih b hrec e hmem hp) hc.2
      · rw [if_neg hc] at h
        injection h with h2
        subst h2
        rcases List.mem_cons.mp he with rfl | hmem
        · by_contra hgt
          exact hc ⟨hp, by omega⟩
        · exact ih b hrec e hmem hp

theorem getAncestorValue_eq_none (t : List (List Char × Hook)) (name : List Char)
    (h : ∀ e ∈ t, ¬ e.1 <+: name) : getAncestorValue t name = none := by
  induction t with
  | nil => rfl
  | cons f rest ih =>
    have hrest := ih (fun e he => h e (List.mem_cons_of_mem _ he))
    simp only [getAncestorValue, hrest]
    rw [if_neg (h f (List.mem_cons_self _ _))]

/-- C7: registry lookup consults the exact-name table first and returns its
hook when present; only on a fixed-table miss does it consult the prefix
table, returning the hook of the longest registered prefix of the name; when
neither matches it returns `none`. -/
theorem intrinsics_get_exact_then_longest (I : Intrinsics) (name : List Char) :
    (∀ h, lookupFixed I.fixed name = some h → I.get name = some h)
  ∧ (lookupFixed I.fixed name = none →
      (∀ a, getAncestorValue I.variablePrefixes name = some a →
        I.get name = some a.2 ∧ a ∈ I.variablePrefixes ∧ a.1 <+: name ∧
        ∀ e ∈ I.variablePrefixes, e.1 <+: name → e.1.length ≤ a.1.length)
    ∧ (getAncestorValue I.variablePrefixes name = none →
        I.get name = none ∧ ∀ e ∈ I.variablePrefixes, ¬ e.1 <+: name)) := by
  refine ⟨?_, fun hf => ⟨?_, ?_⟩⟩
  · intro h hh
    simp [Intrinsics.get, hh, Option.orElse]
  · intro a ha
    refine ⟨?_, (getAncestorValue_mem _ _ _ ha).1, (getAncestorValue_mem _ _ _ ha).2,
      getAncestorValue_maximal _ _ _ ha⟩
    simp [Intrinsics.get, hf, ha, Option.orElse]
  · intro hn
    exact ⟨by simp [Intrinsics.get, hf, hn, Option.orElse], getAncestorValue_none _ _ hn⟩

theorem not_prefix_append (p t s : List Char) (h1 : ¬ p <+: t) (h2 : ¬ t <+: p) :
    ¬ p <+: t ++ s := by
  intro h
  rcases Nat.le_total p.length t.length with hle | hle
  · exact h1 (List.prefix_of_prefix_length_le h (List.prefix_append t s) hle)
  · exact h2 (List.prefix_of_prefix_length_le (List.prefix_append t s) h hle)

theorem default_registry_miss (nm : List Char)
    (h0 : "llvm.assume".toList ≠ nm)
    (h : ∀ e ∈ Intrinsics.new_with_defaults.variablePrefixes, ¬ e.1 <+: nm) :
    Intrinsics.get Intrinsics.new_with_defaults nm = none := by
  have h1 : lookupFixed Intrinsics.new_with_defaults.fixed nm = none := by
    simp only [Intrinsics.new_with_defaults, lookupFixed]
    rw [if_neg h0]
  simp [Intrinsics.get, h1, getAncestorValue_eq_none _ _ h, Option.orElse]

/-- C8: for every suffix, neither `llvm.ssub.sat.*` nor `llvm.usub.sat.*` is
found in the default registry: the fixed table holds only `llvm.assume`, and
no registered variable prefix is a prefix of either family, so `get` returns
`none` and the call falls through to unsupported-call handling. -/
theorem ssub_usub_sat_unregistered (s : List Char) :
    Intrinsics.get Intrinsics.new_with_defaults ("llvm.ssub.sat.".toList ++ s) = none ∧
    Intrinsics.get Intrinsics.new_with_defaults ("llvm.usub.sat.".toList ++ s) = none := by
  constructor
  · apply default_registry_miss
    · intro h
      have hlen := congrArg List.length h
      rw [List.length_append] at hlen
      have e1 : ("llvm.assume".toList).length = 11 := rfl
      have e2 : ("llvm.ssub.sat.".toList).length = 14 := rfl
      omega
    · intro e he
      fin_cases he <;> exact not_prefix_append _ _ _ (by decide) (by decide)
  · apply default_registry_miss
    · intro h
      have hlen := congrArg List.length h
      rw [List.length_append] at hlen
      have e1 : ("llvm.assume".toList).length = 11 := rfl
      have e2 : ("llvm.usub.sat.".toList).length = 14 := rfl
      omega
    · intro e he
      fin_cases he <;> exact not_prefix_append _ _ _ (by decide) (by decide)

/-- C9: the memcpy hook narrows the concretized 64-bit size to 32 bits and
multiplies by 8 in 32-bit arithmetic, so exactly `(size mod 2^32) * 8 mod 2^32`
bits are read and written; a size of `2^32` bytes or more is silently
truncated (the hook still returns `Void`) instead of copied in full. -/
theorem memcpy_size_truncated_u32 (dst src size : Nat) (m : Memory) :
    llvm_memcpy dst src size m
      = (m.write dst (m.read src (size % 2 ^ 32 * 8 % 2 ^ 32)), ReturnValue.Void)
    ∧ (m.read src (size % 2 ^ 32 * 8 % 2 ^ 32)).width = size % 2 ^ 32 * 8 % 2 ^ 32
    ∧ (size < 2 ^ 29 → size % 2 ^ 32 * 8 % 2 ^ 32 = size * 8)
    ∧ (2 ^ 32 ≤ size → size % 2 ^ 32 * 8 % 2 ^ 32 ≠ size * 8) := by
  refine ⟨rfl, rfl, ?_, ?_⟩
  · intro h
    have h2 : size % 2 ^ 32 = size := Nat.mod_eq_of_lt (by omega)
    rw [h2, Nat.mod_eq_of_lt (by omega)]
  · intro h
    have hm := Nat.mod_lt (size % 2 ^ 32 * 8) (show 0 < 2 ^ 32 by norm_num)
    omega

theorem Memory.write_apply (m : Memory) (addr : Nat) (v : BV) (j : Nat) :
    Memory.write m addr v j
      = if addr * BITS_IN_BYTE ≤ j ∧ j < addr * BITS_IN_BYTE + v.width
        then v.val.testBit (j - addr * BITS_IN_BYTE) else m j := rfl

theorem memset_loop (dst value : BV) (ptr_size : Nat) (hp : dst.width = ptr_size)
    (hv : value.width = 8) :
    ∀ (size : Nat) (m : Memory), ∃ m2,
      (List.range size).foldlM (fun mem byte => do
        let offset := BV.ofNat ptr_size byte
        let addr ← BV.add dst offset
        pure (mem.write addr.val value)) m = some m2 ∧
      ∀ i, i < size → ∀ b, b < 8 →
        m2 ((dst.val + i) % 2 ^ ptr_size * 8 + b) = value.val.testBit b := by
  intro size
  induction size with
  | zero =>
    intro m
    exact ⟨m, rfl, fun i hi => absurd hi (by omega)⟩
  | succ k ih =>
    intro m
    obtain ⟨m2, hfold, hprop⟩ := ih m
    have haddr : (Boolector.add dst (BV.ofNat ptr_size k)).val
        = (dst.val + k) % 2 ^ ptr_size := by
      simp only [Boolector.add, BV.ofNat, hp]
      rw [Nat.add_mod_mod]
    refine ⟨m2.write (Boolector.add dst (BV.ofNat ptr_size k)).val value, ?_, ?_⟩
    · rw [List.range_succ, List.foldlM_append, hfold]
      simp [BV.add, BV.len, BV.ofNat, hp]
    · intro i hi b hb
      rw [Memory.write_apply, haddr]
      simp only [BITS_IN_BYTE, hv]
      rcases Nat.lt_succ_iff_lt_or_eq.mp hi with hik | rfl
      · split
        · next hcond =>
          congr 1
          omega
        · next => exact hprop i hik b hb
      · rw [if_pos (by omega)]
        congr 1
        omega

/-- C10: the memset hook asserts an exactly 8-bit fill value: any other width
produces no write and no return value (an assertion failure); with an 8-bit
value it writes that byte at each of the `size` consecutive pointer-width
addresses from the destination and returns `Void`. -/
theorem memset_requires_byte_width (dst value : BV) (size ptr_size : Nat) (m : Memory)
    (hp : dst.width = ptr_size) :
    (value.width ≠ BITS_IN_BYTE → llvm_memset dst value size ptr_size m = none) ∧
    (value.width = BITS_IN_BYTE → ∃ m2,
      llvm_memset dst value size ptr_size m = some (m2, ReturnValue.Void) ∧
      ∀ i, i < size → ∀ b, b < 8 →
        m2 ((dst.val + i) % 2 ^ ptr_size * 8 + b) = value.val.testBit b) := by
  constructor
  · intro h
    simp [llvm_memset, BV.len, h]
  · intro h
    obtain ⟨m2, hfold, hprop⟩ := memset_loop dst value ptr_size hp h size m
    refine ⟨m2, ?_, hprop⟩
    simp only [llvm_memset, BV.len_eq, h, if_pos]
    rw [hfold]
    rfl

/-- C10 witness: an 8-bit fill value `171` written at 2 consecutive addresses
from destination `3` with 8-bit pointers. -/
theorem memset_requires_byte_width_witness :
    ((BV.ofNat 8 171).width ≠ BITS_IN_BYTE →
      llvm_memset (BV.ofNat 8 3) (BV.ofNat 8 171) 2 8 (fun _ => false) = none) ∧
    ((BV.ofNat 8 171).width = BITS_IN_BYTE → ∃ m2,
      llvm_memset (BV.ofNat 8 3) (BV.ofNat 8 171) 2 8 (fun _ => false)
        = some (m2, ReturnValue.Void) ∧
      ∀ i, i < 2 → ∀ b, b < 8 →
        m2 (((BV.ofNat 8 3).val + i) % 2 ^ 8 * 8 + b) = (BV.ofNat 8 171).val.testBit b) :=
  memset_requires_byte_width (BV.ofNat 8 3) (BV.ofNat 8 171) 2 8 (fun _ => false) rfl
